import Mathlib

/-!
Verification of the pyehm `utils` core (matrix builder, clusterer, hypothesis
network, decomposition tree) against its natural-language specification.

The Python source is shallowly embedded:
* hypotheses carry an optional measurement id (`none` models the null
  hypothesis, i.e. a falsy hypothesis object) and a rational weight;
* numpy matrices become a shape record together with an entry function;
* the `next(...)` detection lookup, which raises when no detection matches,
  becomes an `Option`-valued computation;
* node objects are represented by their arena index in the network's node
  sequence (the stable insertion index `ind`), so the dictionaries keyed by
  node objects become maps keyed by natural numbers; Python dicts become
  `Option (Finset _)`-valued functions;
* the undirected graph built by `to_graph`/`connected_components` becomes a
  `SimpleGraph` on `Fin rows` whose connected components are computed by
  decidable reachability.
-/

namespace PyEHM

/-- A validation matrix: a Boolean numpy array of shape `(rows, cols)`,
where column 0 is the null-hypothesis column. -/
structure BMatrix where
  rows : ℕ
  cols : ℕ
  entry : ℕ → ℕ → Bool

/-- A single association hypothesis: `measurement = none` models a null
(falsy) hypothesis, `some m` a hypothesis referencing detection `m`.
The weight is the hypothesis weight. -/
structure Hypothesis where
  measurement : Option ℕ
  weight : ℚ
deriving DecidableEq

/-- `likelihood_matrix[i, j] = w` : functional update of a matrix entry. -/
def setEntry (m : ℕ → ℕ → ℚ) (i j : ℕ) (w : ℚ) : ℕ → ℕ → ℚ :=
  fun a b => if a = i ∧ b = j then w else m a b

/-- One iteration of the inner loop of `calc_validation_and_likelihood_matrices`:
a null hypothesis writes its weight into column 0; otherwise the first
detection equal to the hypothesis' measurement is located via
`next(d_i for d_i, detection in enumerate(detections) if ...)` (which fails,
yielding `none`, when no detection matches) and the weight goes to
column `j + 1`. -/
def applyHyp (detections : List ℕ) (i : ℕ) (m : ℕ → ℕ → ℚ) (hyp : Hypothesis) :
    Option (ℕ → ℕ → ℚ) :=
  match hyp.measurement with
  | none => some (setEntry m i 0 hyp.weight)
  | some meas =>
    match detections.findIdx? (fun d => d == meas) with
    | some j => some (setEntry m i (j + 1) hyp.weight)
    | none => none

/-- The outer loop `for i, track in enumerate(tracks)` of
`calc_validation_and_likelihood_matrices`, filling row `i` from the
hypotheses of `track`. -/
def fillTrackRows (detections : List ℕ) (hypotheses : ℕ → List Hypothesis) :
    ℕ → List ℕ → (ℕ → ℕ → ℚ) → Option (ℕ → ℕ → ℚ)
  | _, [], m => some m
  | i, track :: rest, m =>
    match (hypotheses track).foldlM (applyHyp detections i) m with
    | some m' => fillTrackRows detections hypotheses (i + 1) rest m'
    | none => none

/-- `calc_validation_and_likelihood_matrices(tracks, detections, hypotheses)`.
Starts from the all-zero likelihood matrix of shape
`(num_tracks, num_detections + 1)`, fills it row by row, and finally takes
`validation_matrix = likelihood_matrix > 0` elementwise.  The result is
`none` when some hypothesis references a detection absent from
`detections` (the Python code raises there). -/
def calc_validation_and_likelihood_matrices (tracks detections : List ℕ)
    (hypotheses : ℕ → List Hypothesis) : Option (BMatrix × (ℕ → ℕ → ℚ)) :=
  match fillTrackRows detections hypotheses 0 tracks (fun _ _ => 0) with
  | some L =>
    some (⟨tracks.length, detections.length + 1, fun i j => decide (0 < L i j)⟩, L)
  | none => none

/-- A hypothesis whose measurement matches no supplied detection makes the
inner-loop step fail. -/
theorem applyHyp_none_of_missing {detections : List ℕ} (i : ℕ) (m : ℕ → ℕ → ℚ)
    {hyp : Hypothesis} {meas : ℕ} (hm : hyp.measurement = some meas)
    (habs : meas ∉ detections) : applyHyp detections i m hyp = none := by
  have hfind : detections.findIdx? (fun d => d == meas) = none := by
    rw [List.findIdx?_eq_none_iff]
    intro x hx
    simp only [beq_eq_false_iff_ne, ne_eq]
    intro h
    exact habs (h ▸ hx)
  unfold applyHyp
  rw [hm]
  show (match detections.findIdx? (fun d => d == meas) with
    | some j => some (setEntry m i (j + 1) hyp.weight)
    | none => none) = none
  rw [hfind]

/-- If some element of the list makes the fold step fail (for every state),
the monadic fold over `Option` fails. -/
theorem foldlM_none_of_mem {α : Type} {f : (ℕ → ℕ → ℚ) → α → Option (ℕ → ℕ → ℚ)}
    {l : List α} {x : α} (hx : x ∈ l) (hf : ∀ s, f s x = none) :
    ∀ s, l.foldlM f s = none := by
  induction l with
  | nil => cases hx
  | cons a t ih =>
    intro s
    rw [List.foldlM_cons]
    rcases List.mem_cons.mp hx with h | h
    · subst h
      rw [hf s]
      rfl
    · cases hfa : f s a with
      | none => rfl
      | some s' =>
        show (some s' >>= fun s'' => List.foldlM f s'' t) = none
        exact ih h s'

/-- If some track in the remaining list has a hypothesis referencing a
missing detection, the row-filling loop fails. -/
theorem fillTrackRows_none {detections : List ℕ} {hypotheses : ℕ → List Hypothesis}
    {ts : List ℕ}
    (hbad : ∃ t ∈ ts, ∃ h ∈ hypotheses t, ∃ meas,
      h.measurement = some meas ∧ meas ∉ detections) :
    ∀ i m, fillTrackRows detections hypotheses i ts m = none := by
  induction ts with
  | nil => exact absurd hbad (by simp)
  | cons t rest ih =>
    intro i m
    rcases hbad with ⟨t', ht', hyp, hhyp, meas, hm, habs⟩
    rcases List.mem_cons.mp ht' with h | h
    · have hinner : (hypotheses t).foldlM (applyHyp detections i) m = none :=
        foldlM_none_of_mem (h ▸ hhyp)
          (fun s => applyHyp_none_of_missing i s hm habs) m
      unfold fillTrackRows
      rw [hinner]
    · unfold fillTrackRows
      cases hfold : (hypotheses t).foldlM (applyHyp detections i) m with
      | none => rfl
      | some m' => exact ih ⟨t', h, hyp, hhyp, meas, hm, habs⟩ (i + 1) m'

/-- C1: if some hypothesis of some track references a detection absent from
the supplied detections sequence, `calc_validation_and_likelihood_matrices`
fails with a lookup error (`none`): the entry is not silently treated as
zero. -/
theorem calc_matrices_fails_on_missing_detection
    (tracks detections : List ℕ) (hypotheses : ℕ → List Hypothesis)
    (hbad : ∃ t ∈ tracks, ∃ h ∈ hypotheses t, ∃ meas,
      h.measurement = some meas ∧ meas ∉ detections) :
    calc_validation_and_likelihood_matrices tracks detections hypotheses = none := by
  unfold calc_validation_and_likelihood_matrices
  rw [fillTrackRows_none hbad 0 (fun _ _ => 0)]

/-- A concrete run of C1: one track whose single hypothesis references
detection 5, while the detections sequence is empty. -/
theorem calc_matrices_fails_on_missing_detection_witness :
    calc_validation_and_likelihood_matrices [0] []
      (fun _ => [⟨some 5, 1⟩]) = none :=
  calc_matrices_fails_on_missing_detection [0] [] (fun _ => [⟨some 5, 1⟩])
    ⟨0, by decide, ⟨some 5, 1⟩, by decide, 5, rfl, by decide⟩

/-- Counterexample to C2 as stated: a track whose hypothesis list holds no
null hypothesis (here a single hypothesis on detection 0) yields a
validation matrix with one row whose column 0 is `false`. -/
theorem calc_matrices_col0_counterexample :
    (calc_validation_and_likelihood_matrices [0] [0]
        (fun _ => [⟨some 0, 1⟩])).map (fun r => (r.1.rows, r.1.entry 0 0)) =
      some (1, false) := by
  rfl

/-- A successful inner-loop step writes a single entry of row `i`. -/
theorem applyHyp_some_shape {detections : List ℕ} {i : ℕ} {m m' : ℕ → ℕ → ℚ}
    {hyp : Hypothesis} (h : applyHyp detections i m hyp = some m') :
    ∃ j w, m' = setEntry m i j w := by
  unfold applyHyp at h
  cases hm : hyp.measurement with
  | none =>
    rw [hm] at h
    exact ⟨0, hyp.weight, (Option.some_injective _ h).symm⟩
  | some meas =>
    rw [hm] at h
    have h' : (match detections.findIdx? (fun d => d == meas) with
      | some j => some (setEntry m i (j + 1) hyp.weight)
      | none => none) = some m' := h
    cases hf : detections.findIdx? (fun d => d == meas) with
    | none => rw [hf] at h'; cases h'
    | some j =>
      rw [hf] at h'
      exact ⟨j + 1, hyp.weight, (Option.some_injective _ h').symm⟩

/-- `setEntry` leaves every other row unchanged. -/
theorem setEntry_ne_row {m : ℕ → ℕ → ℚ} {i j a b : ℕ} {w : ℚ} (h : a ≠ i) :
    setEntry m i j w a b = m a b := by
  unfold setEntry
  rw [if_neg]
  exact fun hc => h hc.1

/-- `setEntry` at a nonzero column leaves column 0 unchanged. -/
theorem setEntry_col0 {m : ℕ → ℕ → ℚ} {i j a : ℕ} {w : ℚ} (h : j ≠ 0) :
    setEntry m i j w a 0 = m a 0 := by
  unfold setEntry
  rw [if_neg]
  exact fun hc => h hc.2.symm

/-- The inner hypothesis loop for row `i` leaves every other row unchanged. -/
theorem foldlM_applyHyp_preserves {detections : List ℕ} {i : ℕ} :
    ∀ {l : List Hypothesis} {m m' : ℕ → ℕ → ℚ},
      l.foldlM (applyHyp detections i) m = some m' →
      ∀ a, a ≠ i → ∀ b, m' a b = m a b := by
  intro l
  induction l with
  | nil =>
    intro m m' h a ha b
    cases h
    rfl
  | cons hyp t ih =>
    intro m m' h a ha b
    rw [List.foldlM_cons] at h
    cases hfa : applyHyp detections i m hyp with
    | none => rw [hfa] at h; cases h
    | some m₁ =>
      rw [hfa] at h
      have h' : t.foldlM (applyHyp detections i) m₁ = some m' := h
      obtain ⟨j, w, rfl⟩ := applyHyp_some_shape hfa
      rw [ih h' a ha b, setEntry_ne_row ha]

/-- If every null hypothesis of the list has positive weight, and the list
holds a null hypothesis (or column 0 of row `i` is already positive), a
successful inner loop leaves column 0 of row `i` positive. -/
theorem foldlM_applyHyp_col0 {detections : List ℕ} {i : ℕ} :
    ∀ {l : List Hypothesis} {m m' : ℕ → ℕ → ℚ},
      (∀ h ∈ l, h.measurement = none → 0 < h.weight) →
      ((∃ h ∈ l, h.measurement = none) ∨ 0 < m i 0) →
      l.foldlM (applyHyp detections i) m = some m' →
      0 < m' i 0 := by
  intro l
  induction l with
  | nil =>
    intro m m' _ hd h
    cases h
    rcases hd with ⟨h0, hh0, _⟩ | hpos
    · cases hh0
    · exact hpos
  | cons hyp t ih =>
    intro m m' hw hd h
    rw [List.foldlM_cons] at h
    cases hm : hyp.measurement with
    | none =>
      have hstep : applyHyp detections i m hyp = some (setEntry m i 0 hyp.weight) := by
        unfold applyHyp
        rw [hm]
      rw [hstep] at h
      have h' : t.foldlM (applyHyp detections i) (setEntry m i 0 hyp.weight) = some m' := h
      refine ih (fun h'' hh'' => hw h'' (List.mem_cons_of_mem _ hh'')) (Or.inr ?_) h'
      show 0 < setEntry m i 0 hyp.weight i 0
      unfold setEntry
      rw [if_pos ⟨rfl, rfl⟩]
      exact hw hyp (List.mem_cons_self _ _) hm
    | some meas =>
      cases hfa : applyHyp detections i m hyp with
      | none => rw [hfa] at h; cases h
      | some m₁ =>
        rw [hfa] at h
        have h' : t.foldlM (applyHyp detections i) m₁ = some m' := h
        have hcol : m₁ i 0 = m i 0 := by
          unfold applyHyp at hfa
          rw [hm] at hfa
          have hfa' : (match detections.findIdx? (fun d => d == meas) with
            | some j' => some (setEntry m i (j' + 1) hyp.weight)
            | none => none) = some m₁ := hfa
          cases hf : detections.findIdx? (fun d => d == meas) with
          | none => rw [hf] at hfa'; cases hfa'
          | some j' =>
            rw [hf] at hfa'
            rw [← Option.some_injective _ hfa']
            exact setEntry_col0 (Nat.succ_ne_zero j')
        refine ih (fun h'' hh'' => hw h'' (List.mem_cons_of_mem _ hh'')) ?_ h'
        rcases hd with ⟨h0, hh0, hnull⟩ | hpos
        · rcases List.mem_cons.mp hh0 with rfl | hh0t
          · rw [hm] at hnull
            cases hnull
          · exact Or.inl ⟨h0, hh0t, hnull⟩
        · exact Or.inr (hcol ▸ hpos)

/-- Row-filling loop invariant: all rows already filled keep a positive
column-0 entry, and each newly processed track with a null hypothesis of
positive weight makes its row's column 0 positive. -/
theorem fillTrackRows_col0 {detections : List ℕ} {hypotheses : ℕ → List Hypothesis} :
    ∀ (ts : List ℕ) (k : ℕ) (m m' : ℕ → ℕ → ℚ),
      (∀ t ∈ ts, (∃ h ∈ hypotheses t, h.measurement = none) ∧
        (∀ h ∈ hypotheses t, h.measurement = none → 0 < h.weight)) →
      (∀ a, a < k → 0 < m a 0) →
      fillTrackRows detections hypotheses k ts m = some m' →
      ∀ a, a < k + ts.length → 0 < m' a 0 := by
  intro ts
  induction ts with
  | nil =>
    intro k m m' _ hinv h a ha
    cases h
    exact hinv a (by simpa using ha)
  | cons t rest ih =>
    intro k m m' hcond hinv h a ha
    unfold fillTrackRows at h
    cases hfold : (hypotheses t).foldlM (applyHyp detections k) m with
    | none => rw [hfold] at h; cases h
    | some m₁ =>
      rw [hfold] at h
      have hinv' : ∀ a', a' < k + 1 → 0 < m₁ a' 0 := by
        intro a' ha'
        rcases Nat.lt_succ_iff_lt_or_eq.mp ha' with h' | rfl
        · rw [foldlM_applyHyp_preserves hfold a' (Nat.ne_of_lt h') 0]
          exact hinv a' h'
        · exact foldlM_applyHyp_col0 (hcond t (List.mem_cons_self t rest)).2
            (Or.inl (hcond t (List.mem_cons_self t rest)).1) hfold
      have hrec := ih (k + 1) m₁ m'
        (fun t' ht' => hcond t' (List.mem_cons_of_mem _ ht')) hinv' h
      refine hrec a ?_
      have : (t :: rest).length = rest.length + 1 := List.length_cons t rest
      omega

/-- C2 (amended): provided every track carries at least one null hypothesis
and every null hypothesis has positive weight, the validation matrix
returned by `calc_validation_and_likelihood_matrices` has column 0 `true`
in every row. -/
theorem calc_matrices_col0_true
    (tracks detections : List ℕ) (hypotheses : ℕ → List Hypothesis)
    (hcond : ∀ t ∈ tracks, (∃ h ∈ hypotheses t, h.measurement = none) ∧
      (∀ h ∈ hypotheses t, h.measurement = none → 0 < h.weight))
    (r : BMatrix × (ℕ → ℕ → ℚ))
    (hr : calc_validation_and_likelihood_matrices tracks detections hypotheses = some r)
    (i : ℕ) (hi : i < tracks.length) : r.1.entry i 0 = true := by
  unfold calc_validation_and_likelihood_matrices at hr
  cases hfill : fillTrackRows detections hypotheses 0 tracks (fun _ _ => 0) with
  | none => rw [hfill] at hr; cases hr
  | some L =>
    rw [hfill] at hr
    have hr' := Option.some_injective _ hr
    rw [← hr']
    show decide (0 < L i 0) = true
    rw [decide_eq_true_eq]
    exact fillTrackRows_col0 tracks 0 _ L hcond
      (fun a ha => absurd ha (Nat.not_lt_zero a)) hfill i (by simpa using hi)

/-- The likelihood matrix produced by the C2 witness run: one track with a
single null hypothesis of weight 1 and no detections. -/
def likelihoodW : ℕ → ℕ → ℚ := setEntry (fun _ _ => 0) 0 0 1

/-- The validation matrix produced by the C2 witness run. -/
def validationW : BMatrix := ⟨1, 1, fun i j => decide (0 < likelihoodW i j)⟩

/-- A concrete run of the amended C2: one track with a null hypothesis of
weight 1; its validation row has column 0 `true`. -/
theorem calc_matrices_col0_true_witness : validationW.entry 0 0 = true :=
  calc_matrices_col0_true [0] [] (fun _ => [⟨none, 1⟩])
    (by
      intro t ht
      constructor
      · exact ⟨⟨none, 1⟩, List.mem_singleton.mpr rfl, rfl⟩
      · intro h hh _
        rw [List.mem_singleton.mp hh]
        exact one_pos)
    (validationW, likelihoodW) rfl 0 (by decide)

/-- A node of the hypothesis network: a layer, an identity (set of detection
indices), and the insertion index `ind` assigned by the network (initially
`None`).  Node objects are referred to through their insertion index, the
stable arena handle. -/
structure EHMNetNode where
  layer : Int
  identity : Finset ℕ
  ind : Option ℕ
deriving DecidableEq

/-- Python `d[key].add(v)` when `key in d`, else `d[key] = {v}`. -/
def dictAdd (d : ℕ × ℕ → Option (Finset ℕ)) (k : ℕ × ℕ) (v : ℕ) :
    ℕ × ℕ → Option (Finset ℕ) :=
  fun k' =>
    if k' = k then
      match d k with
      | some s => some (insert v s)
      | none => some {v}
    else d k'

/-- Python `d[key] = s` (plain assignment, overwriting any previous entry). -/
def dictSet (d : ℕ × ℕ → Option (Finset ℕ)) (k : ℕ × ℕ) (s : Finset ℕ) :
    ℕ × ℕ → Option (Finset ℕ) :=
  fun k' => if k' = k then some s else d k'

/-- The hypothesis network: an insertion-ordered node arena, the validation
matrix, the edge map keyed by (parent index, child index), and the two
derived lookup indexes keyed by (node index, detection). -/
structure EHMNet where
  _nodes : List EHMNetNode
  validation_matrix : BMatrix
  edges : ℕ × ℕ → Option (Finset ℕ)
  parents_per_detection : ℕ × ℕ → Option (Finset ℕ)
  children_per_detection : ℕ × ℕ → Option (Finset ℕ)
  nodes_per_track : ℕ → Option (Finset ℕ)

/-- `EHMNet.__init__(nodes, validation_matrix, edges=None)`: every supplied
node gets its position as insertion index (overwriting whatever `ind` it
carried); the lookup indexes start empty; `edges=None` yields an empty edge
dict. -/
def EHMNet.init (nodes : List EHMNetNode) (validation_matrix : BMatrix)
    (edges : Option (ℕ × ℕ → Option (Finset ℕ))) : EHMNet :=
  { _nodes := nodes.enum.map (fun p => { p.2 with ind := some p.1 }),
    validation_matrix := validation_matrix,
    edges := match edges with
      | some e => e
      | none => fun _ => none,
    parents_per_detection := fun _ => none,
    children_per_detection := fun _ => none,
    nodes_per_track := fun _ => none }

/-- The `nodes` property. -/
def EHMNet.nodes (net : EHMNet) : List EHMNetNode := net._nodes

/-- The `num_nodes` property. -/
def EHMNet.num_nodes (net : EHMNet) : ℕ := net._nodes.length

/-- The `nodes_forward` property: `sorted(self.nodes, key=lambda x: x.layer)`,
a stable ascending sort by layer. -/
def EHMNet.nodes_forward (net : EHMNet) : List EHMNetNode :=
  net.nodes.mergeSort (fun a b => decide (a.layer ≤ b.layer))

/-- `EHMNet.add_node(node, parent, detection)`: sets the node's index to the
current node count, appends it, creates the edge `(parent, node) = {detection}`,
assigns `parents_per_detection[(node, detection)] = {parent}` and adds the
node to `children_per_detection[(parent, detection)]`.  No membership check
is performed on `parent`. -/
def EHMNet.add_node (net : EHMNet) (node : EHMNetNode) (parent detection : ℕ) :
    EHMNet :=
  let ind := net._nodes.length
  { net with
    _nodes := net._nodes ++ [{ node with ind := some ind }],
    edges := dictSet net.edges (parent, ind) {detection},
    parents_per_detection :=
      dictSet net.parents_per_detection (ind, detection) {parent},
    children_per_detection :=
      dictAdd net.children_per_detection (parent, detection) ind }

/-- `EHMNet.add_edge(parent, child, detection)`: unions the detection into
the edge's label set (creating the edge if absent) and adds the parent/child
to the two lookup indexes.  No membership check is performed on either
endpoint. -/
def EHMNet.add_edge (net : EHMNet) (parent child detection : ℕ) : EHMNet :=
  { net with
    edges := dictAdd net.edges (parent, child) detection,
    parents_per_detection :=
      dictAdd net.parents_per_detection (child, detection) parent,
    children_per_detection :=
      dictAdd net.children_per_detection (parent, detection) child }

/-- Adding the same value to the same key twice is the same as adding it
once. -/
theorem dictAdd_idem (d : ℕ × ℕ → Option (Finset ℕ)) (k : ℕ × ℕ) (v : ℕ) :
    dictAdd (dictAdd d k v) k v = dictAdd d k v := by
  funext k'
  unfold dictAdd
  by_cases hk : k' = k
  · simp only [if_pos hk, if_pos rfl]
    cases d k with
    | some s => simp [Finset.insert_idem]
    | none => simp
  · simp only [if_neg hk]

/-- C5: `add_edge` is idempotent: a second call with the same
(parent, child, detection) triple leaves the edge map and both lookup
indexes identical to their state after the first call. -/
theorem add_edge_idempotent (net : EHMNet) (parent child detection : ℕ) :
    ((net.add_edge parent child detection).add_edge parent child detection).edges
        = (net.add_edge parent child detection).edges ∧
    ((net.add_edge parent child detection).add_edge parent child
          detection).parents_per_detection
        = (net.add_edge parent child detection).parents_per_detection ∧
    ((net.add_edge parent child detection).add_edge parent child
          detection).children_per_detection
        = (net.add_edge parent child detection).children_per_detection :=
  ⟨dictAdd_idem _ _ _, dictAdd_idem _ _ _, dictAdd_idem _ _ _⟩

/-- A concrete one-node network (a root with layer 0). -/
def nodeA : EHMNetNode := ⟨0, ∅, none⟩

/-- A concrete validation matrix for the one-node network. -/
def vmA : BMatrix := ⟨1, 1, fun _ _ => true⟩

/-- A freshly constructed network holding only `nodeA`. -/
def netA : EHMNet := EHMNet.init [nodeA] vmA none

/-- Counterexample to C6 as stated: `netA` has a single node (index 0), yet
`add_edge` with the absent parent index 5 succeeds and records the edge, and
`add_node` with the absent parent index 7 succeeds and appends the node;
neither call fails. -/
theorem add_missing_endpoint_counterexample :
    netA.num_nodes = 1 ∧
    (netA.add_edge 5 0 3).edges (5, 0) = some {3} ∧
    (netA.add_edge 5 0 3)._nodes = netA._nodes ∧
    (netA.add_node nodeA 7 2).edges (7, 1) = some {2} ∧
    (netA.add_node nodeA 7 2).num_nodes = 2 := by
  refine ⟨rfl, by decide, rfl, by decide, rfl⟩

/-- C6 (amended): `add_node` and `add_edge` perform no membership check on
their endpoints: called with a parent index not present in the network they
succeed, recording the edge (and, for `add_node`, appending exactly the one
new node) instead of failing, and the missing endpoint is not auto-inserted
into the node sequence. -/
theorem add_missing_endpoint_succeeds (net : EHMNet) (parent child detection : ℕ)
    (node : EHMNetNode) (habs : net.num_nodes ≤ parent) :
    (net.add_edge parent child detection)._nodes = net._nodes ∧
    ((net.add_edge parent child detection).edges (parent, child)).isSome = true ∧
    (net.add_node node parent detection)._nodes
        = net._nodes ++ [{ node with ind := some net.num_nodes }] ∧
    (net.add_node node parent detection).edges (parent, net.num_nodes)
        = some {detection} := by
  refine ⟨rfl, ?_, rfl, ?_⟩
  · show ((dictAdd net.edges (parent, child) detection) (parent, child)).isSome = true
    unfold dictAdd
    rw [if_pos rfl]
    cases net.edges (parent, child) with
    | some s => rfl
    | none => rfl
  · show (dictSet net.edges (parent, net._nodes.length) {detection})
        (parent, net._nodes.length) = some {detection}
    unfold dictSet
    rw [if_pos rfl]

/-- A concrete run of the amended C6 on `netA` with absent parent index 5. -/
theorem add_missing_endpoint_succeeds_witness :
    (netA.add_edge 5 0 3)._nodes = netA._nodes ∧
    ((netA.add_edge 5 0 3).edges (5, 0)).isSome = true ∧
    (netA.add_node nodeA 5 3)._nodes
        = netA._nodes ++ [{ nodeA with ind := some netA.num_nodes }] ∧
    (netA.add_node nodeA 5 3).edges (5, netA.num_nodes) = some {3} :=
  add_missing_endpoint_succeeds netA 5 0 3 nodeA (by decide)

/-- A sequence of `add_node(node, parent, detection)` calls. -/
def applyAddNodes (net : EHMNet) (ops : List (EHMNetNode × ℕ × ℕ)) : EHMNet :=
  ops.foldl (fun n op => n.add_node op.1 op.2.1 op.2.2) net

/-- The node stored at each position of the arena carries that position as
its insertion index. -/
def IndCorrect (net : EHMNet) : Prop :=
  ∀ (i : ℕ) (h : i < net._nodes.length), (net._nodes.get ⟨i, h⟩).ind = some i

/-- The constructor assigns each supplied node its position as index,
overwriting whatever `ind` the node carried. -/
theorem indCorrect_of_init (nodes : List EHMNetNode) (vm : BMatrix)
    (e : Option (ℕ × ℕ → Option (Finset ℕ))) : IndCorrect (EHMNet.init nodes vm e) := by
  intro i h
  simp only [EHMNet.init, List.get_eq_getElem, List.getElem_map] at h ⊢
  rw [List.getElem_enum]

/-- `add_node` gives the appended node the pre-append node count as index
and leaves every existing node (and its index) unchanged. -/
theorem indCorrect_add_node (net : EHMNet) (node : EHMNetNode)
    (parent detection : ℕ) (hn : IndCorrect net) :
    IndCorrect (net.add_node node parent detection) := by
  intro i h
  have hlen : (net.add_node node parent detection)._nodes.length
      = net._nodes.length + 1 := by
    simp [EHMNet.add_node]
  rcases Nat.lt_succ_iff_lt_or_eq.mp (hlen ▸ h) with h' | rfl
  · have : (net.add_node node parent detection)._nodes.get ⟨i, h⟩
        = net._nodes.get ⟨i, h'⟩ := by
      simp only [EHMNet.add_node, List.get_eq_getElem]
      exact List.getElem_append_left h'
    rw [this]
    exact hn i h'
  · show ((net._nodes ++ [{ node with ind := some net._nodes.length }]).get
      ⟨net._nodes.length, h⟩).ind = some net._nodes.length
    simp only [List.get_eq_getElem]
    rw [List.getElem_append_right (Nat.le_refl _)]
    simp

/-- C10: after construction and after any sequence of `add_node` calls, the
node stored at position `i` of the node sequence has `ind = i`: the
constructor overwrites any `ind` the supplied nodes carried, and `add_node`
assigns the new node the pre-append node count while leaving existing nodes
unchanged. -/
theorem nodes_ind_correct (nodes : List EHMNetNode) (vm : BMatrix)
    (e : Option (ℕ × ℕ → Option (Finset ℕ))) (ops : List (EHMNetNode × ℕ × ℕ))
    (i : ℕ) (h : i < (applyAddNodes (EHMNet.init nodes vm e) ops)._nodes.length) :
    ((applyAddNodes (EHMNet.init nodes vm e) ops)._nodes.get ⟨i, h⟩).ind = some i := by
  have main : ∀ (ops' : List (EHMNetNode × ℕ × ℕ)) (net : EHMNet),
      IndCorrect net → IndCorrect (applyAddNodes net ops') := by
    intro ops'
    induction ops' with
    | nil => intro net hn; exact hn
    | cons op rest ih =>
      intro net hn
      show IndCorrect (applyAddNodes (net.add_node op.1 op.2.1 op.2.2) rest)
      exact ih _ (indCorrect_add_node _ _ _ _ hn)
  exact main ops _ (indCorrect_of_init nodes vm e) i h

/-- A concrete run of C10: a one-node constructor followed by one `add_node`
call; the node at position 1 has index 1. -/
theorem nodes_ind_correct_witness :
    ((applyAddNodes (EHMNet.init [nodeA] vmA none) [(nodeA, 0, 0)])._nodes.get
      ⟨1, by decide⟩).ind = some 1 :=
  nodes_ind_correct [nodeA] vmA none [(nodeA, 0, 0)] 1 (by decide)

/-- The layer comparison used by `nodes_forward` is transitive. -/
theorem layerLE_trans (a b c : EHMNetNode) (hab : decide (a.layer ≤ b.layer))
    (hbc : decide (b.layer ≤ c.layer)) : decide (a.layer ≤ c.layer) := by
  simp only [decide_eq_true_eq] at *
  exact le_trans hab hbc

/-- The layer comparison used by `nodes_forward` is total. -/
theorem layerLE_total (a b : EHMNetNode) :
    decide (a.layer ≤ b.layer) || decide (b.layer ≤ a.layer) := by
  simp only [Bool.or_eq_true, decide_eq_true_eq]
  exact le_total a.layer b.layer

/-- C8: `nodes_forward` returns all of the network's nodes (a permutation of
the node sequence), sorted by ascending layer, and nodes of equal layer keep
their insertion order (for every layer value, restricting `nodes_forward` to
that layer gives exactly the restriction of the node sequence). -/
theorem nodes_forward_sorted_stable (net : EHMNet) :
    net.nodes_forward.Perm net.nodes ∧
    net.nodes_forward.Pairwise (fun a b => a.layer ≤ b.layer) ∧
    ∀ L : Int, net.nodes_forward.filter (fun n => decide (n.layer = L))
        = net.nodes.filter (fun n => decide (n.layer = L)) := by
  refine ⟨List.mergeSort_perm _ _, ?_, ?_⟩
  · have hs := List.sorted_mergeSort layerLE_trans layerLE_total net.nodes
    exact hs.imp (fun h => decide_eq_true_eq.mp h)
  · intro L
    have hmemL : ∀ a ∈ net.nodes.filter (fun n => decide (n.layer = L)),
        a.layer = L := by
      intro a ha
      rw [List.mem_filter] at ha
      exact decide_eq_true_eq.mp ha.2
    have hpw : (net.nodes.filter (fun n => decide (n.layer = L))).Pairwise
        (fun a b => decide (a.layer ≤ b.layer) = true) := by
      refine List.pairwise_of_forall_mem_list ?_
      intro a ha b hb
      rw [decide_eq_true_eq, hmemL a ha, hmemL b hb]
    have hsub : List.Sublist (net.nodes.filter (fun n => decide (n.layer = L)))
        net.nodes_forward :=
      List.sublist_mergeSort layerLE_trans layerLE_total hpw (List.filter_sublist _)
    have hsub2 : List.Sublist (net.nodes.filter (fun n => decide (n.layer = L)))
        (net.nodes_forward.filter (fun n => decide (n.layer = L))) := by
      have h1 := hsub.filter (fun n => decide (n.layer = L))
      rwa [List.filter_eq_self.mpr (fun a ha => (List.mem_filter.mp ha).2)] at h1
    have hlen : (net.nodes_forward.filter (fun n => decide (n.layer = L))).length
        = (net.nodes.filter (fun n => decide (n.layer = L))).length :=
      ((List.mergeSort_perm _ _).filter _).length_eq
    exact (hsub2.eq_of_length hlen.symm).symm

/-- `x` is a member of the set stored in dict `d` at key `k`. -/
def memD (d : ℕ × ℕ → Option (Finset ℕ)) (k : ℕ × ℕ) (x : ℕ) : Prop :=
  ∃ s, d k = some s ∧ x ∈ s

/-- Membership after `dictAdd`. -/
theorem memD_dictAdd {d : ℕ × ℕ → Option (Finset ℕ)} {k k' : ℕ × ℕ} {v x : ℕ} :
    memD (dictAdd d k v) k' x ↔
      (k' = k ∧ (x = v ∨ memD d k x)) ∨ (k' ≠ k ∧ memD d k' x) := by
  unfold memD dictAdd
  by_cases hk : k' = k
  · subst hk
    simp only [if_pos rfl, ne_eq, not_true_eq_false, false_and, or_false, true_and]
    cases d k' with
    | some s => simp [Finset.mem_insert]
    | none => simp
  · simp [hk]

/-- Membership after `dictSet`. -/
theorem memD_dictSet {d : ℕ × ℕ → Option (Finset ℕ)} {k k' : ℕ × ℕ}
    {s₀ : Finset ℕ} {x : ℕ} :
    memD (dictSet d k s₀) k' x ↔ (k' = k ∧ x ∈ s₀) ∨ (k' ≠ k ∧ memD d k' x) := by
  unfold memD dictSet
  by_cases hk : k' = k <;> simp [hk]

/-- `dictAdd` at a key other than its target is the original dict. -/
theorem dictAdd_ne {d : ℕ × ℕ → Option (Finset ℕ)} {k k' : ℕ × ℕ} {v : ℕ}
    (h : k' ≠ k) : dictAdd d k v k' = d k' := by
  unfold dictAdd
  rw [if_neg h]

/-- `dictSet` at a key other than its target is the original dict. -/
theorem dictSet_ne {d : ℕ × ℕ → Option (Finset ℕ)} {k k' : ℕ × ℕ}
    {s : Finset ℕ} (h : k' ≠ k) : dictSet d k s k' = d k' := by
  unfold dictSet
  rw [if_neg h]

/-- Entry-wise growth of a dict: every existing entry persists and only
gains elements. -/
def dictGrows (f g : ℕ × ℕ → Option (Finset ℕ)) : Prop :=
  ∀ k s, f k = some s → ∃ t, g k = some t ∧ s ⊆ t

/-- `dictAdd` only grows a dict. -/
theorem dictGrows_dictAdd (d : ℕ × ℕ → Option (Finset ℕ)) (k : ℕ × ℕ) (v : ℕ) :
    dictGrows d (dictAdd d k v) := by
  intro k' s hs
  unfold dictAdd
  by_cases hk : k' = k
  · subst hk
    rw [if_pos rfl, hs]
    exact ⟨insert v s, rfl, Finset.subset_insert v s⟩
  · rw [if_neg hk]
    exact ⟨s, hs, subset_rfl⟩

/-- `dictSet` at an absent key only grows a dict. -/
theorem dictGrows_dictSet_of_none {d : ℕ × ℕ → Option (Finset ℕ)} {k : ℕ × ℕ}
    (h : d k = none) (s₀ : Finset ℕ) : dictGrows d (dictSet d k s₀) := by
  intro k' s hs
  unfold dictSet
  by_cases hk : k' = k
  · subst hk
    rw [h] at hs
    cases hs
  · rw [if_neg hk]
    exact ⟨s, hs, subset_rfl⟩

/-- Consistency of the two lookup indexes with the edge map: detection `d`
labels edge `(p, c)` exactly when `p ∈ parents_per_detection[(c, d)]` and
`c ∈ children_per_detection[(p, d)]`. -/
def EHMNet.Consistent (net : EHMNet) : Prop :=
  ∀ p c d, memD net.edges (p, c) d ↔
    (memD net.parents_per_detection (c, d) p ∧
     memD net.children_per_detection (p, d) c)

/-- Every edge key's child component and every parents-index key's node
component refers to a node already inside the arena. -/
def EHMNet.KeysBounded (net : EHMNet) : Prop :=
  (∀ p c, net.edges (p, c) ≠ none → c < net._nodes.length) ∧
  (∀ c d, net.parents_per_detection (c, d) ≠ none → c < net._nodes.length)

/-- One network-building API call; `add_edge` is restricted to a child
already present in the network (the amended call discipline). -/
inductive NetStep : EHMNet → EHMNet → Prop
  | add_node (net : EHMNet) (node : EHMNetNode) (parent detection : ℕ) :
      NetStep net (net.add_node node parent detection)
  | add_edge (net : EHMNet) (parent child detection : ℕ)
      (hc : child < net._nodes.length) :
      NetStep net (net.add_edge parent child detection)

/-- Networks obtainable from a fresh constructor call (`edges=None`) by a
sequence of steps. -/
def NetReachable (net : EHMNet) : Prop :=
  ∃ nodes vm, Relation.ReflTransGen NetStep (EHMNet.init nodes vm none) net

/-- A fresh network is consistent (all maps empty). -/
theorem init_consistent (nodes : List EHMNetNode) (vm : BMatrix) :
    (EHMNet.init nodes vm none).Consistent := by
  intro p c d
  constructor
  · rintro ⟨s, hs, _⟩
    cases hs
  · rintro ⟨⟨s, hs, _⟩, _⟩
    cases hs

/-- A fresh network has bounded keys (all maps empty). -/
theorem init_keysBounded (nodes : List EHMNetNode) (vm : BMatrix) :
    (EHMNet.init nodes vm none).KeysBounded := by
  constructor
  · intro p c h
    exact absurd rfl h
  · intro c d h
    exact absurd rfl h

/-- `add_edge` preserves consistency, for any endpoints. -/
theorem consistent_add_edge {net : EHMNet} (h : net.Consistent)
    (parent child detection : ℕ) :
    (net.add_edge parent child detection).Consistent := by
  intro p c d
  have hC := h p c d
  show memD (dictAdd net.edges (parent, child) detection) (p, c) d ↔
    (memD (dictAdd net.parents_per_detection (child, detection) parent) (c, d) p ∧
     memD (dictAdd net.children_per_detection (parent, detection) child) (p, d) c)
  rw [memD_dictAdd, memD_dictAdd, memD_dictAdd]
  rcases eq_or_ne p parent with rfl | hp <;>
    rcases eq_or_ne c child with rfl | hc2 <;>
      rcases eq_or_ne d detection with rfl | hd <;>
        simp_all [Prod.mk.injEq]

/-- `add_node` preserves consistency when the network's keys are bounded
(the appended index is fresh for the edge map and the parents index). -/
theorem consistent_add_node {net : EHMNet} (hC : net.Consistent)
    (hKB : net.KeysBounded) (node : EHMNetNode) (parent detection : ℕ) :
    (net.add_node node parent detection).Consistent := by
  intro p c d
  have hE : ∀ p' d', ¬ memD net.edges (p', net._nodes.length) d' := by
    rintro p' d' ⟨s, hs, _⟩
    have hne : net.edges (p', net._nodes.length) ≠ none := by
      rw [hs]
      exact fun hx => Option.noConfusion hx
    exact absurd (hKB.1 p' net._nodes.length hne) (lt_irrefl _)
  have hP : ∀ d' p', ¬ memD net.parents_per_detection (net._nodes.length, d') p' := by
    rintro d' p' ⟨s, hs, _⟩
    have hne : net.parents_per_detection (net._nodes.length, d') ≠ none := by
      rw [hs]
      exact fun hx => Option.noConfusion hx
    exact absurd (hKB.2 net._nodes.length d' hne) (lt_irrefl _)
  have hC' := hC p c d
  have hE' := hE p d
  have hP' := hP d p
  show memD (dictSet net.edges (parent, net._nodes.length) {detection}) (p, c) d ↔
    (memD (dictSet net.parents_per_detection (net._nodes.length, detection)
        {parent}) (c, d) p ∧
     memD (dictAdd net.children_per_detection (parent, detection)
        net._nodes.length) (p, d) c)
  rw [memD_dictSet, memD_dictSet, memD_dictAdd]
  rcases eq_or_ne c net._nodes.length with rfl | hc2 <;>
    rcases eq_or_ne p parent with rfl | hp <;>
      rcases eq_or_ne d detection with rfl | hd <;>
        simp_all [Prod.mk.injEq]

/-- `add_edge` with an in-range child preserves bounded keys. -/
theorem keysBounded_add_edge {net : EHMNet} (hKB : net.KeysBounded)
    {parent child detection : ℕ} (hc : child < net._nodes.length) :
    (net.add_edge parent child detection).KeysBounded := by
  constructor
  · intro p c h
    show c < net._nodes.length
    by_cases hk : ((p, c) : ℕ × ℕ) = (parent, child)
    · rw [Prod.mk.injEq] at hk
      rw [hk.2]
      exact hc
    · refine hKB.1 p c ?_
      have h' : dictAdd net.edges (parent, child) detection (p, c) ≠ none := h
      rwa [dictAdd_ne hk] at h'
  · intro c d h
    show c < net._nodes.length
    by_cases hk : ((c, d) : ℕ × ℕ) = (child, detection)
    · rw [Prod.mk.injEq] at hk
      rw [hk.1]
      exact hc
    · refine hKB.2 c d ?_
      have h' : dictAdd net.parents_per_detection (child, detection) parent (c, d)
          ≠ none := h
      rwa [dictAdd_ne hk] at h'

/-- `add_node` preserves bounded keys. -/
theorem keysBounded_add_node {net : EHMNet} (hKB : net.KeysBounded)
    (node : EHMNetNode) (parent detection : ℕ) :
    (net.add_node node parent detection).KeysBounded := by
  have hlen : (net.add_node node parent detection)._nodes.length
      = net._nodes.length + 1 := by
    simp [EHMNet.add_node]
  constructor
  · intro p c h
    rw [hlen]
    by_cases hk : ((p, c) : ℕ × ℕ) = (parent, net._nodes.length)
    · rw [Prod.mk.injEq] at hk
      rw [hk.2]
      exact Nat.lt_succ_self _
    · have h' : dictSet net.edges (parent, net._nodes.length) {detection} (p, c)
          ≠ none := h
      rw [dictSet_ne hk] at h'
      exact Nat.lt_succ_of_lt (hKB.1 p c h')
  · intro c d h
    rw [hlen]
    by_cases hk : ((c, d) : ℕ × ℕ) = (net._nodes.length, detection)
    · rw [Prod.mk.injEq] at hk
      rw [hk.1]
      exact Nat.lt_succ_self _
    · have h' : dictSet net.parents_per_detection (net._nodes.length, detection)
          {parent} (c, d) ≠ none := h
      rw [dictSet_ne hk] at h'
      exact Nat.lt_succ_of_lt (hKB.2 c d h')

/-- Every step preserves bounded keys and consistency. -/
theorem netStep_preserves {net net' : EHMNet} (hs : NetStep net net')
    (hKB : net.KeysBounded) (hC : net.Consistent) :
    net'.KeysBounded ∧ net'.Consistent := by
  cases hs with
  | add_node node parent detection =>
    exact ⟨keysBounded_add_node hKB node parent detection,
      consistent_add_node hC hKB node parent detection⟩
  | add_edge parent child detection hc =>
    exact ⟨keysBounded_add_edge hKB hc, consistent_add_edge hC parent child detection⟩

/-- Reachable networks have bounded keys and consistent indexes. -/
theorem netReachable_inv {net : EHMNet} (h : NetReachable net) :
    net.KeysBounded ∧ net.Consistent := by
  obtain ⟨nodes, vm, hrt⟩ := h
  induction hrt with
  | refl => exact ⟨init_keysBounded nodes vm, init_consistent nodes vm⟩
  | tail hab hbc ih => exact netStep_preserves hbc ih.1 ih.2

/-- Each step from a keys-bounded network only grows the two lookup
indexes. -/
theorem netStep_grows {net net' : EHMNet} (hs : NetStep net net')
    (hKB : net.KeysBounded) :
    dictGrows net.parents_per_detection net'.parents_per_detection ∧
    dictGrows net.children_per_detection net'.children_per_detection := by
  cases hs with
  | add_node node parent detection =>
    constructor
    · have hnone : net.parents_per_detection (net._nodes.length, detection)
          = none := by
      -- an entry at the fresh index would contradict key boundedness
        by_contra hne
        exact absurd (hKB.2 _ _ hne) (lt_irrefl _)
      exact dictGrows_dictSet_of_none hnone _
    · exact dictGrows_dictAdd _ _ _
  | add_edge parent child detection hc =>
    exact ⟨dictGrows_dictAdd _ _ _, dictGrows_dictAdd _ _ _⟩

/-- C7 (amended): across every sequence of `add_node` and `add_edge` calls
on a freshly constructed network in which each `add_edge` call's child is a
node already present in the network, the `parents_per_detection` and
`children_per_detection` indexes only ever grow (entries are extended,
never overwritten or shrunk), and they stay consistent with the edge map:
detection `d` labels edge `(p, c)` exactly when `p ∈
parents_per_detection[(c, d)]` and `c ∈ children_per_detection[(p, d)]`. -/
theorem indexes_grow_and_stay_consistent {net net' : EHMNet}
    (h : NetReachable net) (hs : NetStep net net') :
    dictGrows net.parents_per_detection net'.parents_per_detection ∧
    dictGrows net.children_per_detection net'.children_per_detection ∧
    net'.Consistent := by
  obtain ⟨hKB, hC⟩ := netReachable_inv h
  obtain ⟨hg1, hg2⟩ := netStep_grows hs hKB
  obtain ⟨_, hC'⟩ := netStep_preserves hs hKB hC
  exact ⟨hg1, hg2, hC'⟩

/-- A concrete run of the amended C7: from the fresh one-node network, one
`add_node` call grows the indexes and keeps them consistent. -/
theorem indexes_grow_and_stay_consistent_witness :
    dictGrows netA.parents_per_detection
        (netA.add_node nodeA 0 0).parents_per_detection ∧
    dictGrows netA.children_per_detection
        (netA.add_node nodeA 0 0).children_per_detection ∧
    (netA.add_node nodeA 0 0).Consistent :=
  indexes_grow_and_stay_consistent ⟨[nodeA], vmA, Relation.ReflTransGen.refl⟩
    (NetStep.add_node netA nodeA 0 0)

/-- A second node for the two-node counterexample network. -/
def nodeB : EHMNetNode := ⟨1, ∅, none⟩

/-- A fresh two-node network (indices 0 and 1). -/
def netB : EHMNet := EHMNet.init [nodeA, nodeB] vmA none

/-- `add_edge` called with child index 2: a node object not yet inserted in
the network. -/
def netB1 : EHMNet := netB.add_edge 1 2 7

/-- The floating node is then inserted via `add_node` under parent 0 with
the same detection 7. -/
def netB2 : EHMNet := netB1.add_node nodeA 0 7

/-- Counterexample to C7 as stated: after `add_edge(node1, x, 7)` with a
not-yet-inserted node object `x` and then `add_node(x, node0, 7)`, the
`parents_per_detection` entry at `(x, 7)` is overwritten from `{1}` to
`{0}` — it shrinks (parent 1 is dropped) — and consistency with the edge
map is broken: detection 7 still labels edge `(1, 2)` but `1 ∉
parents_per_detection[(2, 7)]`. -/
theorem indexes_overwrite_counterexample :
    netB1.parents_per_detection (2, 7) = some {1} ∧
    netB2.parents_per_detection (2, 7) = some {0} ∧
    (1 : ℕ) ∈ ({1} : Finset ℕ) ∧ (1 : ℕ) ∉ ({0} : Finset ℕ) ∧
    netB2.edges (1, 2) = some {7} ∧
    ¬ netB2.Consistent := by
  refine ⟨by decide, by decide, by decide, by decide, by decide, ?_⟩
  intro hcon
  have h1 := (hcon 1 2 7).mp ⟨{7}, by decide, by decide⟩
  obtain ⟨⟨s, hs, hmem⟩, _⟩ := h1
  have hppd : netB2.parents_per_detection (2, 7) = some {0} := by decide
  rw [hppd] at hs
  have hs0 : s = {0} := (Option.some_injective _ hs).symm
  rw [hs0] at hmem
  exact absurd hmem (by decide)

/-- `np.flatnonzero(v_matrix_true[:, col_ind])`: the ascending list of track
rows gated by detection column `c` of `v_matrix_true` (column `c + 1` of the
validation matrix, skipping the null column). -/
def gatedList (M : BMatrix) (c : ℕ) : List (Fin M.rows) :=
  (List.finRange M.rows).filter (fun r => M.entry r.1 (c + 1))

/-- The per-detection gated-track lists `v_lists`. -/
def vLists (M : BMatrix) : List (List (Fin M.rows)) :=
  (List.range (M.cols - 1)).map (fun c => gatedList M c)

/-- `to_edges(lst)`: the consecutive pairs `(lst[i], lst[i+1])`. -/
def to_edges {α : Type} (lst : List α) : List (α × α) := lst.zip lst.tail

/-- The nodes of the graph `G` built by `to_graph(v_lists)`. -/
def graphNodes (M : BMatrix) : List (Fin M.rows) := (vLists M).flatten

/-- The edges of the graph `G` built by `to_graph(v_lists)`: the chained
consecutive pairs of every gated list. -/
def graphEdges (M : BMatrix) : List (Fin M.rows × Fin M.rows) :=
  ((vLists M).map to_edges).flatten

/-- The undirected graph over track indices built by `to_graph`. -/
def gGraph (M : BMatrix) : SimpleGraph (Fin M.rows) where
  Adj a b := a ≠ b ∧ ((a, b) ∈ graphEdges M ∨ (b, a) ∈ graphEdges M)
  symm := by
    intro a b h
    exact ⟨h.1.symm, h.2.symm⟩
  loopless := by
    intro a h
    exact h.1 rfl

instance (M : BMatrix) : DecidableRel (gGraph M).Adj := fun a b =>
  inferInstanceAs
    (Decidable (a ≠ b ∧ ((a, b) ∈ graphEdges M ∨ (b, a) ∈ graphEdges M)))

/-- A track row is a node of `G` iff it appears in some gated list. -/
def isGated (M : BMatrix) (v : Fin M.rows) : Bool := v ∈ graphNodes M

/-- The representative of a connected component of `G`: its gated vertex of
minimal index.  `connected_components` is modelled by enumerating one
component per representative (the spec allows any labeling order). -/
def isRep (M : BMatrix) (v : Fin M.rows) : Bool :=
  isGated M v &&
    (List.finRange M.rows).all
      (fun w => !(decide (w.1 < v.1) && decide ((gGraph M).Reachable v w)))

/-- A cluster: the row (track) indices and column (detection) indices of an
independent sub-problem. -/
structure Cluster where
  rows : Finset ℕ
  cols : Finset ℕ
deriving DecidableEq

/-- The cluster built from one connected component: its rows, and the union
over its rows of each row's valid non-null columns re-offset by `+1`. -/
def clusterOfRep (M : BMatrix) (v : Fin M.rows) : Cluster :=
  { rows := (Finset.univ.filter (fun w => (gGraph M).Reachable v w)).image
      (fun r => r.1),
    cols := (Finset.univ.filter (fun w => (gGraph M).Reachable v w)).biUnion
      (fun r => ((Finset.range (M.cols - 1)).filter
        (fun c => M.entry r.1 (c + 1))).image (fun c => c + 1)) }

/-- The cluster list of `gen_clusters`: one cluster per connected component
of `G`. -/
def clustersList (M : BMatrix) : List Cluster :=
  ((List.finRange M.rows).filter (fun v => isRep M v)).map (clusterOfRep M)

/-- `gen_clusters(v_matrix)`: the clusters and the residual set of row
indices associated to no detection (`unassoc_rows - assoc_rows`). -/
def gen_clusters (M : BMatrix) : List Cluster × Finset ℕ :=
  (clustersList M,
   Finset.range M.rows \ (clustersList M).foldr (fun K s => K.rows ∪ s) ∅)

/-- Two track rows share a gating detection: some non-null column is valid
for both rows of the validation matrix. -/
def sharesDetection (M : BMatrix) (a b : ℕ) : Prop :=
  ∃ c, c < M.cols - 1 ∧ M.entry a (c + 1) = true ∧ M.entry b (c + 1) = true

/-- Membership in a gated list is exactly validity of the corresponding
matrix entry. -/
theorem mem_gatedList_iff {M : BMatrix} {c : ℕ} {r : Fin M.rows} :
    r ∈ gatedList M c ↔ M.entry r.1 (c + 1) = true := by
  unfold gatedList
  rw [List.mem_filter]
  simp [List.mem_finRange]

/-- Each in-range detection column contributes its gated list to `v_lists`. -/
theorem gatedList_mem_vLists {M : BMatrix} {c : ℕ} (hc : c < M.cols - 1) :
    gatedList M c ∈ vLists M :=
  List.mem_map_of_mem (fun c => gatedList M c) (List.mem_range.mpr hc)

/-- Chained pairs of an in-range gated list are edges of `G`. -/
theorem gatedList_edges_sub {M : BMatrix} {c : ℕ} (hc : c < M.cols - 1) :
    ∀ e ∈ to_edges (gatedList M c), e ∈ graphEdges M := by
  intro e he
  unfold graphEdges
  rw [List.mem_flatten]
  exact ⟨to_edges (gatedList M c),
    List.mem_map_of_mem to_edges (gatedList_mem_vLists hc), he⟩

/-- Every edge of `G` joins two members of one in-range gated list. -/
theorem graphEdges_endpoints {M : BMatrix} {e : Fin M.rows × Fin M.rows}
    (h : e ∈ graphEdges M) :
    ∃ c, c < M.cols - 1 ∧ e.1 ∈ gatedList M c ∧ e.2 ∈ gatedList M c := by
  unfold graphEdges at h
  rw [List.mem_flatten] at h
  obtain ⟨el, hel, he⟩ := h
  rw [List.mem_map] at hel
  obtain ⟨l, hl, rfl⟩ := hel
  unfold vLists at hl
  rw [List.mem_map] at hl
  obtain ⟨c, hc, rfl⟩ := hl
  have hz := List.of_mem_zip he
  exact ⟨c, List.mem_range.mp hc, hz.1, List.mem_of_mem_tail hz.2⟩

/-- All members of a list whose chained pairs are edges of `G` are mutually
reachable in `G`. -/
theorem chain_reachable {M : BMatrix} :
    ∀ {l : List (Fin M.rows)}, (∀ e ∈ to_edges l, e ∈ graphEdges M) →
      ∀ a ∈ l, ∀ b ∈ l, (gGraph M).Reachable a b := by
  intro l
  induction l with
  | nil =>
    intro _ a ha
    cases ha
  | cons x t ih =>
    intro hl a ha b hb
    cases t with
    | nil =>
      rw [List.mem_singleton] at ha hb
      subst ha
      subst hb
      exact SimpleGraph.Reachable.refl _
    | cons y t' =>
      have hxy : (x, y) ∈ graphEdges M := by
        refine hl (x, y) ?_
        show (x, y) ∈ (x :: y :: t').zip (y :: t')
        exact List.mem_cons_self _ _
      have hedges' : ∀ e ∈ to_edges (y :: t'), e ∈ graphEdges M := by
        intro e he
        refine hl e ?_
        show e ∈ (x :: y :: t').zip (y :: t')
        exact List.mem_cons_of_mem _ he
      have hx_y : (gGraph M).Reachable x y := by
        by_cases hxy0 : x = y
        · subst hxy0
          exact SimpleGraph.Reachable.refl x
        · exact SimpleGraph.Adj.reachable ⟨hxy0, Or.inl hxy⟩
      have reachY : ∀ c ∈ x :: y :: t', (gGraph M).Reachable c y := by
        intro c hc
        rcases List.mem_cons.mp hc with rfl | hc'
        · exact hx_y
        · exact ih hedges' c hc' y (List.mem_cons_self _ _)
      exact (reachY a ha).trans (reachY b hb).symm

/-- Adjacent vertices of `G` share a gating detection. -/
theorem adj_sharesDetection {M : BMatrix} {a b : Fin M.rows}
    (h : (gGraph M).Adj a b) : sharesDetection M a.1 b.1 := by
  rcases h.2 with he | he
  · obtain ⟨c, hc, h1, h2⟩ := graphEdges_endpoints he
    exact ⟨c, hc, mem_gatedList_iff.mp h1, mem_gatedList_iff.mp h2⟩
  · obtain ⟨c, hc, h1, h2⟩ := graphEdges_endpoints he
    exact ⟨c, hc, mem_gatedList_iff.mp h2, mem_gatedList_iff.mp h1⟩

/-- A representative is minimal in its component: no vertex of smaller index
is reachable from it. -/
theorem isRep_min {M : BMatrix} {v : Fin M.rows} (h : isRep M v = true) :
    ∀ w : Fin M.rows, w.1 < v.1 → ¬ (gGraph M).Reachable v w := by
  unfold isRep at h
  rw [Bool.and_eq_true] at h
  intro w hw hr
  have hall := h.2
  rw [List.all_eq_true] at hall
  have hx := hall w (List.mem_finRange w)
  simp [hw, hr] at hx

/-- Two representatives joined by a path coincide. -/
theorem reps_eq_of_reachable {M : BMatrix} {v w : Fin M.rows}
    (hv : isRep M v = true) (hw : isRep M w = true)
    (h : (gGraph M).Reachable v w) : v = w := by
  rcases Nat.lt_trichotomy v.1 w.1 with hlt | heq | hgt
  · exact absurd h.symm (isRep_min hw v hlt)
  · exact Fin.ext heq
  · exact absurd h (isRep_min hv w hgt)

/-- Row membership in a representative's cluster is reachability from the
representative. -/
theorem mem_rows_iff {M : BMatrix} {v : Fin M.rows} {a : ℕ} :
    a ∈ (clusterOfRep M v).rows ↔
      ∃ r : Fin M.rows, (gGraph M).Reachable v r ∧ r.1 = a := by
  unfold clusterOfRep
  simp [Finset.mem_image, Finset.mem_filter]

/-- Column membership in a representative's cluster: some reachable row is
gated by the corresponding detection. -/
theorem mem_cols_iff {M : BMatrix} {v : Fin M.rows} {j : ℕ} :
    j ∈ (clusterOfRep M v).cols ↔
      ∃ (r : Fin M.rows) (c : ℕ), (gGraph M).Reachable v r ∧ c < M.cols - 1 ∧
        M.entry r.1 (c + 1) = true ∧ c + 1 = j := by
  unfold clusterOfRep
  simp only [Finset.mem_biUnion, Finset.mem_filter, Finset.mem_univ, true_and,
    Finset.mem_image, Finset.mem_range]
  constructor
  · rintro ⟨r, hr, c, ⟨hc, hce⟩, hj⟩
    exact ⟨r, c, hr, hc, hce, hj⟩
  · rintro ⟨r, c, hr, hc, hce, hj⟩
    exact ⟨r, hr, c, ⟨hc, hce⟩, hj⟩

/-- Distinct representatives have disjoint cluster rows. -/
theorem reps_rows_disjoint {M : BMatrix} {v w : Fin M.rows}
    (hv : isRep M v = true) (hw : isRep M w = true) (hne : v ≠ w) :
    Disjoint (clusterOfRep M v).rows (clusterOfRep M w).rows := by
  rw [Finset.disjoint_left]
  intro x hxv hxw
  obtain ⟨rv, hrv, hrv1⟩ := mem_rows_iff.mp hxv
  obtain ⟨rw', hrw, hrw1⟩ := mem_rows_iff.mp hxw
  have hr : rv = rw' := Fin.ext (hrv1.trans hrw1.symm)
  have h2 : (gGraph M).Reachable w rv := by
    rw [hr]
    exact hrw
  exact hne (reps_eq_of_reachable hv hw (hrv.trans h2.symm))

/-- Distinct representatives have disjoint cluster columns. -/
theorem reps_cols_disjoint {M : BMatrix} {v w : Fin M.rows}
    (hv : isRep M v = true) (hw : isRep M w = true) (hne : v ≠ w) :
    Disjoint (clusterOfRep M v).cols (clusterOfRep M w).cols := by
  rw [Finset.disjoint_left]
  intro j hjv hjw
  obtain ⟨r, c, hr, hc, hce, hj⟩ := mem_cols_iff.mp hjv
  obtain ⟨r', c', hr', hc', hce', hj'⟩ := mem_cols_iff.mp hjw
  have hcc : c' = c := by omega
  subst hcc
  have hrr : (gGraph M).Reachable r r' :=
    chain_reachable (gatedList_edges_sub hc) r (mem_gatedList_iff.mpr hce)
      r' (mem_gatedList_iff.mpr hce')
  exact hne (reps_eq_of_reachable hv hw (hr.trans (hrr.trans hr'.symm)))

/-- Cluster rows are genuine row indices. -/
theorem cluster_rows_subset_range {M : BMatrix} {v : Fin M.rows} :
    (clusterOfRep M v).rows ⊆ Finset.range M.rows := by
  intro x hx
  obtain ⟨r, _, rfl⟩ := mem_rows_iff.mp hx
  exact Finset.mem_range.mpr r.2

/-- A member cluster's rows sit inside the folded union of rows. -/
theorem subset_foldr_union {K : Cluster} :
    ∀ {l : List Cluster}, K ∈ l →
      K.rows ⊆ l.foldr (fun K' s => K'.rows ∪ s) ∅ := by
  intro l
  induction l with
  | nil =>
    intro h
    cases h
  | cons a t ih =>
    intro h
    rcases List.mem_cons.mp h with rfl | h'
    · exact Finset.subset_union_left
    · exact subset_trans (ih h') Finset.subset_union_right

/-- The folded union of rows is bounded by any common bound. -/
theorem foldr_union_subset {t : Finset ℕ} :
    ∀ {l : List Cluster}, (∀ K ∈ l, K.rows ⊆ t) →
      l.foldr (fun K' s => K'.rows ∪ s) ∅ ⊆ t := by
  intro l
  induction l with
  | nil =>
    intro _
    exact Finset.empty_subset t
  | cons a tl ih =>
    intro h
    exact Finset.union_subset (h a (List.mem_cons_self _ _))
      (ih (fun K hK => h K (List.mem_cons_of_mem _ hK)))

/-- C3: the clusters' track-index sets together with the unassociated set
are pairwise disjoint and their union is the full set of track row
indices. -/
theorem gen_clusters_partition (M : BMatrix) :
    (gen_clusters M).1.Pairwise (fun K K' => Disjoint K.rows K'.rows) ∧
    (∀ K ∈ (gen_clusters M).1, Disjoint K.rows (gen_clusters M).2) ∧
    ((gen_clusters M).1.foldr (fun K s => K.rows ∪ s) ∅ ∪ (gen_clusters M).2
      = Finset.range M.rows) := by
  have hrows_sub : ∀ K ∈ clustersList M, K.rows ⊆ Finset.range M.rows := by
    intro K hK
    obtain ⟨v, hv, rfl⟩ := List.mem_map.mp hK
    exact cluster_rows_subset_range
  have hassoc_sub : (clustersList M).foldr (fun K s => K.rows ∪ s) ∅
      ⊆ Finset.range M.rows := foldr_union_subset hrows_sub
  refine ⟨?_, ?_, ?_⟩
  · show (clustersList M).Pairwise _
    unfold clustersList
    rw [List.pairwise_map]
    have hnd : ((List.finRange M.rows).filter (fun v => isRep M v)).Pairwise
        (fun a b => a ≠ b) :=
      (List.nodup_finRange M.rows).filter _
    refine hnd.imp_of_mem ?_
    intro a b ha hb hne
    exact reps_rows_disjoint (List.mem_filter.mp ha).2
      (List.mem_filter.mp hb).2 hne
  · intro K hK
    rw [Finset.disjoint_left]
    intro x hx hx2
    have hmem : x ∈ Finset.range M.rows \
        (clustersList M).foldr (fun K' s => K'.rows ∪ s) ∅ := hx2
    rw [Finset.mem_sdiff] at hmem
    exact hmem.2 (subset_foldr_union hK hx)
  · show (clustersList M).foldr (fun K s => K.rows ∪ s) ∅ ∪
      (Finset.range M.rows \ (clustersList M).foldr (fun K s => K.rows ∪ s) ∅)
      = Finset.range M.rows
    exact Finset.union_sdiff_of_subset hassoc_sub

/-- The one-track, one-detection matrix used as a concrete cluster input. -/
def matW : BMatrix := ⟨1, 2, fun _ _ => true⟩

/-- A concrete run of C3 on `matW`: the single cluster is disjoint from the
unassociated set and together they cover row 0. -/
theorem gen_clusters_partition_witness :
    Disjoint (clusterOfRep matW ⟨0, Nat.zero_lt_one⟩).rows (gen_clusters matW).2 ∧
    ((gen_clusters matW).1.foldr (fun K s => K.rows ∪ s) ∅ ∪ (gen_clusters matW).2
      = Finset.range matW.rows) :=
  ⟨(gen_clusters_partition matW).2.1 _ (by decide),
   (gen_clusters_partition matW).2.2⟩

/-- A walk in `G` starting inside a representative's component yields a
chain of shared detections passing through rows of that component's
cluster. -/
theorem walk_to_chain {M : BMatrix} {v : Fin M.rows} {K : Cluster}
    (hK : K = clusterOfRep M v) :
    ∀ {x y : Fin M.rows}, (gGraph M).Walk x y → (gGraph M).Reachable v x →
      Relation.ReflTransGen
        (fun p q => sharesDetection M p q ∧ p ∈ K.rows ∧ q ∈ K.rows) x.1 y.1 := by
  subst hK
  intro x y w
  induction w with
  | nil =>
    intro _
    exact Relation.ReflTransGen.refl
  | cons h p ih =>
    intro hvx
    refine Relation.ReflTransGen.head ?_ (ih (hvx.trans h.reachable))
    refine ⟨adj_sharesDetection h, ?_, ?_⟩
    · exact mem_rows_iff.mpr ⟨_, hvx, rfl⟩
    · exact mem_rows_iff.mpr ⟨_, hvx.trans h.reachable, rfl⟩

/-- C4: for every cluster, any two of its track rows are linked by a chain
of shared non-null detections through rows of that same cluster, and no
non-null detection column appears in the column sets of two distinct
returned clusters. -/
theorem gen_clusters_connectivity (M : BMatrix) :
    (∀ K ∈ (gen_clusters M).1, ∀ a ∈ K.rows, ∀ b ∈ K.rows,
      Relation.ReflTransGen
        (fun x y => sharesDetection M x y ∧ x ∈ K.rows ∧ y ∈ K.rows) a b) ∧
    (gen_clusters M).1.Pairwise (fun K K' => Disjoint K.cols K'.cols) := by
  constructor
  · intro K hK a ha b hb
    obtain ⟨v, hv, rfl⟩ := List.mem_map.mp hK
    obtain ⟨ra, hra, rfl⟩ := mem_rows_iff.mp ha
    obtain ⟨rb, hrb, rfl⟩ := mem_rows_iff.mp hb
    obtain ⟨w⟩ := hra.symm.trans hrb
    exact walk_to_chain rfl w hra
  · show (clustersList M).Pairwise _
    unfold clustersList
    rw [List.pairwise_map]
    have hnd : ((List.finRange M.rows).filter (fun v => isRep M v)).Pairwise
        (fun a b => a ≠ b) :=
      (List.nodup_finRange M.rows).filter _
    refine hnd.imp_of_mem ?_
    intro a b ha hb hne
    exact reps_cols_disjoint (List.mem_filter.mp ha).2
      (List.mem_filter.mp hb).2 hne

/-- The all-true two-track, one-detection matrix: both tracks share the
single detection. -/
def matW2 : BMatrix := ⟨2, 2, fun _ _ => true⟩

/-- A concrete run of C4 on `matW2`: tracks 0 and 1 lie in one cluster and
are chain-linked through shared detections of that cluster. -/
theorem gen_clusters_connectivity_witness :
    Relation.ReflTransGen
      (fun x y => sharesDetection matW2 x y ∧
        x ∈ (clusterOfRep matW2 ⟨0, Nat.zero_lt_two⟩).rows ∧
        y ∈ (clusterOfRep matW2 ⟨0, Nat.zero_lt_two⟩).rows) 0 1 :=
  (gen_clusters_connectivity matW2).1 _ (by decide) 0 (by decide) 1 (by decide)

/-- C9: a validation matrix with zero track rows, or with no detection
columns beyond the null column, yields an empty cluster sequence and reports
every existing track index as unassociated. -/
theorem gen_clusters_degenerate (M : BMatrix) (h : M.rows = 0 ∨ M.cols ≤ 1) :
    (gen_clusters M).1 = [] ∧ (gen_clusters M).2 = Finset.range M.rows := by
  have hcl : clustersList M = [] := by
    unfold clustersList
    rw [List.map_eq_nil_iff, List.filter_eq_nil_iff]
    intro v hv
    rcases h with h0 | h1
    · have hlt := v.isLt
      exact fun _ => absurd hlt (by omega)
    · have hn : graphNodes M = [] := by
        unfold graphNodes vLists
        rw [Nat.sub_eq_zero_of_le h1]
        rfl
      intro hrep
      unfold isRep isGated at hrep
      rw [hn] at hrep
      simp at hrep
  constructor
  · exact hcl
  · show Finset.range M.rows \
      (clustersList M).foldr (fun K s => K.rows ∪ s) ∅ = Finset.range M.rows
    rw [hcl]
    simp

/-- A three-track matrix with only the null column. -/
def matDeg : BMatrix := ⟨3, 1, fun _ _ => true⟩

/-- A concrete run of C9: three tracks and no detection columns give no
clusters and all three tracks unassociated. -/
theorem gen_clusters_degenerate_witness :
    (gen_clusters matDeg).1 = [] ∧
    (gen_clusters matDeg).2 = Finset.range matDeg.rows :=
  gen_clusters_degenerate matDeg (Or.inr (by decide))

end PyEHM
